import Mathlib

/- Shallow embedding of the conservative mark-and-sweep garbage collector
implemented in the repository's GC header (the single-header collector:
heap arena, free-list allocator, object registry, conservative mark
engine, sweep engine, allocation policy).

Addresses are byte offsets from the arena base (the arena base itself is
kept abstract where it matters, see the mark-engine section).  Machine
integers are modelled as `Nat`; none of the claims under study hinges on
`size_t` wrap-around.  The conservative root-scan/mark phase reads the
machine stack and registers, which a shallow embedding cannot observe;
`gc_collect` is therefore parameterized by the set of object addresses
the mark phase reaches (`m : Nat → Bool`), quantified universally in
every theorem, so every statement holds for all possible mark-phase
outcomes.  The mark engine itself (`gc_mark_object`) is modelled
separately and faithfully over an explicit word-addressed memory.
-/

namespace GCModel

/-- Constant `GC_HEAP_SIZE` from the source: 1024 * 1024 bytes. -/
def GC_HEAP_SIZE : Nat := 1024 * 1024

/-- Constant `GC_ALIGNMENT` from the source: 8 bytes. -/
def GC_ALIGNMENT : Nat := 8

/-- Value of `sizeof(gc_object_t)` on an LP64 platform: `size_t` (8) + `int` (4,
padded to 8) + pointer (8) = 24; the flexible array member adds 0. -/
def OBJ_HEADER : Nat := 24

/-- Value of `sizeof(gc_free_block_t)` on an LP64 platform: `size_t` (8) + pointer (8) = 16. -/
def FREE_HEADER : Nat := 16

/-- A free-list node (`gc_free_block_t`): base address and span size.
The node is stored in place at the start of the span it describes. -/
structure FB where
  addr : Nat
  size : Nat
deriving DecidableEq

/-- An object-registry node (`gc_object_t`): header address, payload size,
mark flag.  The payload starts at `addr + OBJ_HEADER`. -/
structure Obj where
  addr : Nat
  size : Nat
  marked : Bool
deriving DecidableEq

/-- The collector state `gc_state` (the fields the claims speak about;
the source field spelled i-n-i-t-i-a-l-i-z-e-d is called `inited` here). -/
structure GCState where
  heap_size : Nat
  heap_used : Nat
  objects : List Obj
  free_list : List FB
  inited : Bool
  collection_count : Nat
  allocation_count : Nat
deriving DecidableEq

/-- Alignment: `(size + GC_ALIGNMENT - 1) & ~(GC_ALIGNMENT - 1)`, rounding up to the
8-byte alignment unit (for the power of two 8 the mask form equals this
division form). -/
def alignUp (n : Nat) : Nat := (n + (GC_ALIGNMENT - 1)) / GC_ALIGNMENT * GC_ALIGNMENT

/-- The insertion loop of `gc_add_to_freelist`: walk while the cursor
block's address is below the new block's, then link the new block in,
keeping the list sorted by address. -/
def insertFB : List FB → FB → List FB
  | [], nb => [nb]
  | b :: rest, nb =>
    if b.addr < nb.addr then b :: insertFB rest nb
    else nb :: b :: rest

/-- Model of `gc_add_to_freelist(ptr, size)`: spans smaller than
`sizeof(gc_free_block_t)` are dropped, everything else is inserted in
address order. -/
def gc_add_to_freelist (fl : List FB) (a s : Nat) : List FB :=
  if s < FREE_HEADER then fl else insertFB fl ⟨a, s⟩

/-- The loop body of `gc_coalesce_freelist` with `current` as the
accumulator `b`: when `current`'s end equals the next block's start the
next block is absorbed and the cursor stays (re-checking the same
position); otherwise the cursor advances. -/
def coalesceAcc (b : FB) : List FB → List FB
  | [] => [b]
  | b2 :: rest =>
    if b.addr + b.size = b2.addr then
      coalesceAcc ⟨b.addr, b.size + b2.size⟩ rest
    else
      b :: coalesceAcc b2 rest

/-- Model of `gc_coalesce_freelist`: one left-to-right pass merging adjacent blocks. -/
def coalesce : List FB → List FB
  | [] => []
  | b :: rest => coalesceAcc b rest

/-- Model of `gc_alloc_from_freelist(total)`: first block with `size ≥ total`; split
it when the block also fits `total + sizeof(gc_free_block_t) + GC_ALIGNMENT`,
otherwise unlink it whole.  Returns the granted base address (`none` when no
block fits) together with the updated list. -/
def allocFL : List FB → Nat → Option Nat × List FB
  | [], _ => (none, [])
  | b :: rest, total =>
    if total ≤ b.size then
      if total + FREE_HEADER + GC_ALIGNMENT ≤ b.size then
        (some b.addr, ⟨b.addr + total, b.size - total⟩ :: rest)
      else
        (some b.addr, rest)
    else
      let p := allocFL rest total
      (p.1, b :: p.2)

/-- The registry walk of `gc_sweep`: unmarked objects are unlinked, their
`sizeof(gc_object_t) + size` span is handed to `gc_add_to_freelist` and
subtracted from `heap_used`; marked objects survive with the flag reset.
Returns (kept objects, free list, heap_used). -/
def sweepObjs : List Obj → List FB → Nat → List Obj × List FB × Nat
  | [], fl, used => ([], fl, used)
  | o :: rest, fl, used =>
    if o.marked then
      (⟨o.addr, o.size, false⟩ :: (sweepObjs rest fl used).1, (sweepObjs rest fl used).2)
    else
      sweepObjs rest (gc_add_to_freelist fl o.addr (OBJ_HEADER + o.size))
        (used - (OBJ_HEADER + o.size))

/-- Model of `gc_sweep`: the registry walk followed by one coalescing pass. -/
def gc_sweep (st : GCState) : GCState :=
  let r := sweepObjs st.objects st.free_list st.heap_used
  { st with objects := r.1, free_list := coalesce r.2.1, heap_used := r.2.2 }

/-- Model of `gc_collect`: no-op on an uninitialized state; otherwise mark phase
(root scan + transitive marking, abstracted by `m`: the mark flag of an
object becomes true exactly when it already was or the conservative scan
reaches it), then sweep, then the collection counter is incremented. -/
def gc_collect (m : Nat → Bool) (st : GCState) : GCState :=
  if st.inited = false then st
  else
    let ms : List Obj := st.objects.map (fun o => ⟨o.addr, o.size, o.marked || m o.addr⟩)
    let st1 := gc_sweep { st with objects := ms }
    { st1 with collection_count := st1.collection_count + 1 }

/-- The state `gc_init` builds: full arena as a single free block at
offset 0, empty registry, zero counters. -/
def initState : GCState :=
  { heap_size := GC_HEAP_SIZE
    heap_used := 0
    objects := []
    free_list := [⟨0, GC_HEAP_SIZE⟩]
    inited := true
    collection_count := 0
    allocation_count := 0 }

/-- Model of `gc_init`: idempotent; a second call is a no-op. -/
def gc_init (st : GCState) : GCState := if st.inited then st else initState

/-- Total span `total_size = sizeof(gc_object_t) + aligned size`. -/
def totalOf (size : Nat) : Nat := OBJ_HEADER + alignUp size

/-- The collection trigger `heap_used + total_size > heap_size * GC_THRESHOLD`
with `GC_THRESHOLD = 0.8`.  The source compares in `double`; for the only
arena size that occurs (`heap_size = 2^20`) the product
`fl(2^20 * fl(0.8))` lies strictly between 838860 and 838861, and the left
side is an integer exactly representable in `double`, so the comparison
holds iff the sum is at least 838861, iff `5 * sum > 4 * 2^20` — the exact
rational form used here. -/
def overThreshold (st : GCState) (total : Nat) : Bool :=
  decide (4 * st.heap_size < 5 * (st.heap_used + total))

/-- First half of `gc_malloc`: implicit initialization, then the
threshold-triggered collection (runs before any free-list acquisition). -/
def mallocStage1 (m1 : Nat → Bool) (size : Nat) (st0 : GCState) : GCState :=
  let st := gc_init st0
  if overThreshold st (totalOf size) then gc_collect m1 st else st

/-- Model of `gc_malloc`: stage 1, then free-list acquisition; on failure one more
collection and exactly one retry; on success the header is written
(size, mark false, linked at the registry head), `heap_used` grows by the
total span, the allocation counter is incremented, and the payload
address `base + OBJ_HEADER` is returned.  `none` models the NULL return.
`m1`/`m2` are the conservative mark outcomes of the two collections this
call can run. -/
def gc_malloc (m1 m2 : Nat → Bool) (size : Nat) (st0 : GCState) : Option Nat × GCState :=
  let total := totalOf size
  let st1 := mallocStage1 m1 size st0
  let a1 := allocFL st1.free_list total
  match a1.1 with
  | some a =>
    (some (a + OBJ_HEADER),
     { st1 with free_list := a1.2
                objects := ⟨a, alignUp size, false⟩ :: st1.objects
                heap_used := st1.heap_used + total
                allocation_count := st1.allocation_count + 1 })
  | none =>
    let st2 := gc_collect m2 { st1 with free_list := a1.2 }
    let a2 := allocFL st2.free_list total
    match a2.1 with
    | some a =>
      (some (a + OBJ_HEADER),
       { st2 with free_list := a2.2
                  objects := ⟨a, alignUp size, false⟩ :: st2.objects
                  heap_used := st2.heap_used + total
                  allocation_count := st2.allocation_count + 1 })
    | none => (none, { st2 with free_list := a2.2 })

/-- Model of `gc_calloc`: `gc_calloc(num, size) = gc_malloc(num * size)` (payload already zeroed
there); the multiplication is unchecked, as in the source. -/
def gc_calloc (m1 m2 : Nat → Bool) (num size : Nat) (st : GCState) : Option Nat × GCState :=
  gc_malloc m1 m2 (num * size) st

/-- Model of `gc_free`: intentionally a no-op. -/
def gc_free (st : GCState) : GCState := st

/-- Model of `gc_force_collect`: just calls `gc_collect`. -/
def gc_force_collect (m : Nat → Bool) (st : GCState) : GCState := gc_collect m st

/-- Result of `gc_realloc`: a payload pointer, NULL, or the indeterminate
value produced when control reaches the end of the non-void function
(see `gc_realloc`). -/
inductive RRes where
  | ok (p : Nat)
  | nullp
  | undef
deriving DecidableEq

/-- Adapt a `gc_malloc` result to a `gc_realloc` result. -/
def rresOfOpt : Option Nat × GCState → RRes × GCState
  | (some p, st) => (RRes.ok p, st)
  | (none, st) => (RRes.nullp, st)

/-- Model of `gc_realloc(ptr, new_size)`; `p` is the payload address, `p = 0`
models NULL.  The source has a misplaced closing brace: the whole
allocate-new-and-copy fallback sits inside the
`aligned_new_size <= obj->size` branch AFTER its `return ptr;`, so it is
dead code, and when the aligned new size exceeds the object's capacity
control reaches the end of the non-void function without a return —
modelled by `RRes.undef` with an unchanged state (no statement executes
on that path). -/
def gc_realloc (m1 m2 : Nat → Bool) (p : Nat) (new_size : Nat) (st : GCState) : RRes × GCState :=
  if p = 0 then rresOfOpt (gc_malloc m1 m2 new_size st)
  else if new_size = 0 then (RRes.nullp, st)
  else
    match st.objects.find? (fun o => o.addr + OBJ_HEADER == p) with
    | none => rresOfOpt (gc_malloc m1 m2 new_size st)
    | some o =>
      if alignUp new_size ≤ o.size then (RRes.ok p, st)
      else (RRes.undef, st)

/- Section: The mark engine (`gc_mark_object`), over an explicit memory

`mem w` is the pointer-sized word stored at byte address `w`; `base` and
`hsize` are the arena base address and size. -/

/-- Model of `gc_is_pointer`: `heap ≤ p < heap + heap_size`. -/
def inHeapB (base hsize p : Nat) : Bool := decide (base ≤ p) && decide (p < base + hsize)

/-- Model of `gc_is_valid_pointer`: alignment to `sizeof(void*) = 8` plus arena bounds. -/
def validPtr (base hsize v : Nat) : Bool := (v % 8 == 0) && inHeapB base hsize v

/-- The payload containment test of `gc_find_object_containing`:
`data ≤ p < data + size`. -/
def containsB (o : Obj) (p : Nat) : Bool :=
  decide (o.addr + OBJ_HEADER ≤ p) && decide (p < o.addr + OBJ_HEADER + o.size)

/-- Model of `gc_find_object_containing`: arena check, then first registry node
whose payload contains `p`. -/
def findContaining (base hsize : Nat) (objs : List Obj) (p : Nat) : Option Obj :=
  if inHeapB base hsize p then objs.find? (fun o => containsB o p) else none

/-- Set the mark flag of the first registry node whose payload contains
`p` — exactly the node `gc_find_object_containing` returned. -/
def markFirstContaining : List Obj → Nat → List Obj
  | [], _ => []
  | o :: rest, p =>
    if containsB o p then ⟨o.addr, o.size, true⟩ :: rest
    else o :: markFirstContaining rest p

/-- The payload word addresses scanned for an object:
`word_count = size / sizeof(uintptr_t)` words starting at `data`. -/
def payloadWords (o : Obj) : List Nat :=
  (List.range (o.size / 8)).map (fun i => o.addr + OBJ_HEADER + 8 * i)

mutual

/-- Model of `gc_mark_object(p)` with explicit fuel (one unit per recursive entry):
arena check, containment lookup, already-marked guard, set the flag, scan
the payload words.  `none` means the fuel ran out; the termination theorem
shows `unmarkedCount + 1` fuel always suffices. -/
def markObjF (mem : Nat → Nat) (base hsize : Nat) : Nat → List Obj → Nat → Option (List Obj)
  | 0, _, _ => none
  | fuel + 1, objs, p =>
    if inHeapB base hsize p then
      match findContaining base hsize objs p with
      | none => some objs
      | some o =>
        if o.marked then some objs
        else markWordsF mem base hsize fuel (markFirstContaining objs p) (payloadWords o)
    else some objs
termination_by fuel objs p => (fuel, 0)

/-- The payload scanning loop inside `gc_mark_object`: each word passing
`gc_is_valid_pointer` is marked recursively. -/
def markWordsF (mem : Nat → Nat) (base hsize : Nat) : Nat → List Obj → List Nat → Option (List Obj)
  | _, objs, [] => some objs
  | fuel, objs, w :: ws =>
    if validPtr base hsize (mem w) then
      match markObjF mem base hsize fuel objs (mem w) with
      | none => none
      | some objs2 => markWordsF mem base hsize fuel objs2 ws
    else markWordsF mem base hsize fuel objs ws
termination_by fuel objs ws => (fuel, ws.length + 1)

end

/-- Number of unmarked registry nodes (the mark engine's termination measure). -/
def unmarkedCount (objs : List Obj) : Nat := (objs.filter (fun o => !o.marked)).length

/-- Address of the object whose payload contains `p`, if any. -/
def containsAddr (base hsize : Nat) (objs : List Obj) (p : Nat) : Option Nat :=
  (findContaining base hsize objs p).map Obj.addr

/-- One conservative reference step: object at address `a` has a payload
word that passes the candidate test and lands in the payload of the
object at `a2`. -/
def SuccA (mem : Nat → Nat) (base hsize : Nat) (objs : List Obj) (a a2 : Nat) : Prop :=
  ∃ o ∈ objs, o.addr = a ∧ ∃ i, i < o.size / 8 ∧
    validPtr base hsize (mem (o.addr + OBJ_HEADER + 8 * i)) = true ∧
    containsAddr base hsize objs (mem (o.addr + OBJ_HEADER + 8 * i)) = some a2

/-- Conservative reachability from candidate address `p`: the containing
object, closed under conservative payload references. -/
inductive Reach (mem : Nat → Nat) (base hsize : Nat) (objs : List Obj) (p : Nat) : Nat → Prop where
  | root : ∀ a, containsAddr base hsize objs p = some a → Reach mem base hsize objs p a
  | step : ∀ a a2, Reach mem base hsize objs p a → SuccA mem base hsize objs a a2 →
      Reach mem base hsize objs p a2

/-- Some registry node at address `a` is marked. -/
def markedAt (objs : List Obj) (a : Nat) : Prop := ∃ o ∈ objs, o.addr = a ∧ o.marked = true

/-- Mark-monotone shape-preserving relation between registry nodes. -/
def MLe (o o2 : Obj) : Prop :=
  o.addr = o2.addr ∧ o.size = o2.size ∧ (o.marked = true → o2.marked = true)

/-- Pointwise `MLe` between registries (same shape, marks only grow). -/
def MarksLe (l l2 : List Obj) : Prop := List.Forall₂ MLe l l2

/- Section: Invariants and reachable states -/

/-- Two byte spans do not overlap. -/
def spanDisj (a s a2 s2 : Nat) : Prop := a + s ≤ a2 ∨ a2 + s2 ≤ a

/-- Strict separation of free blocks: a gap after the first block. -/
def FBsep (b b2 : FB) : Prop := b.addr + b.size < b2.addr

/-- Weak separation of free blocks: the first ends at or before the second. -/
def FBsepLe (b b2 : FB) : Prop := b.addr + b.size ≤ b2.addr

instance : IsTrans FB FBsep :=
  ⟨fun a b c h1 h2 => by unfold FBsep at *; omega⟩

instance : IsTrans FB FBsepLe :=
  ⟨fun a b c h1 h2 => by unfold FBsepLe at *; omega⟩

/-- The header+payload spans of two objects do not overlap. -/
def objDisj (o o2 : Obj) : Prop :=
  spanDisj o.addr (OBJ_HEADER + o.size) o2.addr (OBJ_HEADER + o2.size)

/-- A span overlaps no block of the free list. -/
def disjAllFB (a s : Nat) (fl : List FB) : Prop := ∀ b ∈ fl, spanDisj a s b.addr b.size

/-- The heap partition invariant: free list strictly separated and sorted,
every free block large enough to store its in-place header, object spans
pairwise disjoint, and object spans disjoint from all free blocks. -/
structure Inv (st : GCState) : Prop where
  fl_sep : List.Chain' FBsep st.free_list
  fl_min : ∀ b ∈ st.free_list, FREE_HEADER ≤ b.size
  obj_disj : List.Pairwise objDisj st.objects
  obj_fl : ∀ o ∈ st.objects, disjAllFB o.addr (OBJ_HEADER + o.size) st.free_list

/-- States produced by initialization followed by any sequence of
`gc_malloc` and `gc_collect` calls, for every request size and every
conservative mark outcome. -/
inductive Reachable : GCState → Prop where
  | init : Reachable initState
  | malloc : ∀ m1 m2 size st, Reachable st → Reachable (gc_malloc m1 m2 size st).2
  | collect : ∀ m st, Reachable st → Reachable (gc_collect m st)

/-- Sum of `header + payload` over the registry (the usage-accounting figure). -/
def objBytes (objs : List Obj) : Nat := (objs.map (fun o => OBJ_HEADER + o.size)).sum

/-- Total bytes held by the free list. -/
def freeBytes (fl : List FB) : Nat := (fl.map FB.size).sum

/-- Sum of `header + payload` over the unmarked (about-to-be-swept) objects. -/
def unmBytes (objs : List Obj) : Nat :=
  ((objs.filter (fun o => !o.marked)).map (fun o => OBJ_HEADER + o.size)).sum

/-- The mark outcome of a collection that reaches no object (no candidate
root aliases any payload). -/
def mNone : Nat → Bool := fun _ => false

/-- An uninitialized collector state (all fields zero, as the C static
initializer leaves `gc_state` before the constructor runs). -/
def uninitState : GCState :=
  { heap_size := 0
    heap_used := 0
    objects := []
    free_list := []
    inited := false
    collection_count := 0
    allocation_count := 0 }

/-- Concrete state: one 8-byte-payload object at offset 0 (allocated and
then dropped by the caller, so no mark reaches it), rest of the arena
free.  This is `(gc_malloc mNone mNone 8 initState).2` with the
reference discarded. -/
def c2State : GCState :=
  { heap_size := GC_HEAP_SIZE
    heap_used := 32
    objects := [⟨0, 8, false⟩]
    free_list := [⟨32, GC_HEAP_SIZE - 32⟩]
    inited := true
    collection_count := 0
    allocation_count := 1 }

/- Section: Span and free-list insertion lemmas -/

theorem spanDisj_symm {a s a2 s2 : Nat} (h : spanDisj a s a2 s2) : spanDisj a2 s2 a s := by
  unfold spanDisj at *; omega

theorem spanDisj_sub {a s a2 s2 x t : Nat} (h : spanDisj x t a s)
    (h1 : a ≤ a2) (h2 : a2 + s2 ≤ a + s) : spanDisj x t a2 s2 := by
  unfold spanDisj at *; omega

theorem insertFB_perm (l : List FB) (nb : FB) : (insertFB l nb).Perm (nb :: l) := by
  induction l with
  | nil => simp [insertFB]
  | cons b rest ih =>
    unfold insertFB
    by_cases h : b.addr < nb.addr
    · simp only [if_pos h]
      exact (List.Perm.cons b ih).trans (List.Perm.swap nb b rest)
    · simp only [if_neg h]
      exact List.Perm.refl _

theorem mem_insertFB {l : List FB} {nb x : FB} : x ∈ insertFB l nb ↔ x = nb ∨ x ∈ l := by
  rw [(insertFB_perm l nb).mem_iff]; simp

theorem insertFB_head (l : List FB) (nb : FB) :
    (insertFB l nb).head? = some nb ∨ (insertFB l nb).head? = l.head? := by
  cases l with
  | nil => left; rfl
  | cons b rest =>
    unfold insertFB
    by_cases h : b.addr < nb.addr
    · right; simp [h]
    · left; simp [h]

theorem insertFB_chain {l : List FB} {nb : FB} (hch : List.Chain' FBsepLe l)
    (hd : ∀ b ∈ l, spanDisj nb.addr nb.size b.addr b.size)
    (hpos : ∀ b ∈ l, 0 < b.size) :
    List.Chain' FBsepLe (insertFB l nb) := by
  induction l with
  | nil => simp [insertFB]
  | cons b rest ih =>
    unfold insertFB
    by_cases h : b.addr < nb.addr
    · simp only [if_pos h]
      rw [List.chain'_cons'] at hch
      rw [List.chain'_cons']
      refine ⟨?_, ih hch.2 (fun x hx => hd x (by simp [hx])) (fun x hx => hpos x (by simp [hx]))⟩
      intro y hy
      rcases insertFB_head rest nb with hh | hh
      · rw [hh] at hy
        simp at hy
        subst hy
        have := hd b (by simp)
        unfold spanDisj at this
        unfold FBsepLe
        omega
      · rw [hh] at hy
        exact hch.1 y hy
    · simp only [if_neg h]
      rw [List.chain'_cons]
      refine ⟨?_, hch⟩
      have := hd b (by simp)
      have := hpos b (by simp)
      unfold spanDisj at *
      unfold FBsepLe
      omega

/- Section: Coalescing lemmas -/

theorem coalesce_one (b : FB) : coalesce [b] = [b] := rfl

theorem coalesce_step (b b2 : FB) (rest : List FB) :
    coalesce (b :: b2 :: rest) =
      if b.addr + b.size = b2.addr then coalesce (⟨b.addr, b.size + b2.size⟩ :: rest)
      else b :: coalesce (b2 :: rest) := by
  rfl

theorem coalesce_cons (l : List FB) :
    ∀ b : FB, ∃ s t, b.size ≤ s ∧ coalesce (b :: l) = ⟨b.addr, s⟩ :: t := by
  induction l with
  | nil => intro b; exact ⟨b.size, [], le_refl _, by simp [coalesce, coalesceAcc]⟩
  | cons b2 rest ih =>
    intro b
    by_cases h : b.addr + b.size = b2.addr
    · rcases ih ⟨b.addr, b.size + b2.size⟩ with ⟨s, t, hs, heq⟩
      refine ⟨s, t, ?_, ?_⟩
      · simp at hs; omega
      · rw [coalesce_step, if_pos h]; exact heq
    · exact ⟨b.size, coalesce (b2 :: rest), le_refl _, by rw [coalesce_step, if_neg h]⟩

theorem coalesce_chain_cons (l : List FB) :
    ∀ b : FB, List.Chain' FBsepLe (b :: l) → List.Chain' FBsep (coalesce (b :: l)) := by
  induction l with
  | nil => intro b _; simp [coalesce, coalesceAcc]
  | cons b2 rest ih =>
    intro b hch
    rw [List.chain'_cons] at hch
    by_cases h : b.addr + b.size = b2.addr
    · rw [coalesce_step, if_pos h]
      apply ih
      have htl := hch.2
      rw [List.chain'_cons'] at htl
      rw [List.chain'_cons']
      refine ⟨?_, htl.2⟩
      intro y hy
      have := htl.1 y hy
      unfold FBsepLe at *
      simp
      omega
    · rw [coalesce_step, if_neg h]
      rw [List.chain'_cons']
      refine ⟨?_, ih b2 hch.2⟩
      intro y hy
      rcases coalesce_cons rest b2 with ⟨s, t, _, heq⟩
      rw [heq] at hy
      simp at hy
      subst hy
      have h1 := hch.1
      unfold FBsepLe at h1
      unfold FBsep
      simp
      omega

theorem coalesce_chain {l : List FB} (hch : List.Chain' FBsepLe l) :
    List.Chain' FBsep (coalesce l) := by
  cases l with
  | nil => simp [coalesce, coalesceAcc]
  | cons b rest => exact coalesce_chain_cons rest b hch

theorem coalesce_min_cons (l : List FB) :
    ∀ (b : FB) (m : Nat), (∀ x ∈ b :: l, m ≤ x.size) → ∀ x ∈ coalesce (b :: l), m ≤ x.size := by
  induction l with
  | nil =>
    intro b m hm x hx
    simp [coalesce, coalesceAcc] at hx
    subst hx
    exact hm x (by simp)
  | cons b2 rest ih =>
    intro b m hm x hx
    by_cases h : b.addr + b.size = b2.addr
    · rw [coalesce_step, if_pos h] at hx
      refine ih _ m ?_ x hx
      intro y hy
      simp at hy
      rcases hy with hy | hy
      · subst hy
        have := hm b (by simp)
        simp
        omega
      · exact hm y (by simp [hy])
    · rw [coalesce_step, if_neg h] at hx
      simp at hx
      rcases hx with hx | hx
      · subst hx; exact hm x (by simp)
      · exact ih b2 m (fun y hy => hm y (by simp at hy; simp [hy])) x hx

theorem coalesce_min {l : List FB} {m : Nat} (hm : ∀ x ∈ l, m ≤ x.size) :
    ∀ x ∈ coalesce l, m ≤ x.size := by
  cases l with
  | nil => intro x hx; simp [coalesce, coalesceAcc] at hx
  | cons b rest => exact coalesce_min_cons rest b m hm

theorem coalesce_disj_cons (l : List FB) :
    ∀ (b : FB) (a s : Nat), 0 < s → disjAllFB a s (b :: l) → disjAllFB a s (coalesce (b :: l)) := by
  induction l with
  | nil =>
    intro b a s _ hd x hx
    simp [coalesce, coalesceAcc] at hx
    subst hx
    exact hd x (by simp)
  | cons b2 rest ih =>
    intro b a s hs hd x hx
    by_cases h : b.addr + b.size = b2.addr
    · rw [coalesce_step, if_pos h] at hx
      refine ih _ a s hs ?_ x hx
      intro y hy
      simp at hy
      rcases hy with hy | hy
      · subst hy
        have h2 := hd b (by simp)
        have h3 := hd b2 (by simp)
        unfold spanDisj at *
        simp at *
        omega
      · exact hd y (by simp [hy])
    · rw [coalesce_step, if_neg h] at hx
      simp at hx
      rcases hx with hx | hx
      · subst hx; exact hd x (by simp)
      · exact ih b2 a s hs (fun y hy => hd y (by simp at hy; simp [hy])) x hx

theorem coalesce_disj {l : List FB} {a s : Nat} (hs : 0 < s) (hd : disjAllFB a s l) :
    disjAllFB a s (coalesce l) := by
  cases l with
  | nil => intro x hx; simp [coalesce, coalesceAcc] at hx
  | cons b rest => exact coalesce_disj_cons rest b a s hs hd

theorem coalesce_freeBytes_cons (l : List FB) :
    ∀ b : FB, freeBytes (coalesce (b :: l)) = freeBytes (b :: l) := by
  induction l with
  | nil => intro b; simp [coalesce, coalesceAcc]
  | cons b2 rest ih =>
    intro b
    by_cases h : b.addr + b.size = b2.addr
    · rw [coalesce_step, if_pos h]
      rw [ih ⟨b.addr, b.size + b2.size⟩]
      simp [freeBytes]
      omega
    · rw [coalesce_step, if_neg h]
      have := ih b2
      simp [freeBytes] at *
      omega

theorem coalesce_freeBytes (l : List FB) : freeBytes (coalesce l) = freeBytes l := by
  cases l with
  | nil => simp [coalesce, coalesceAcc]
  | cons b rest => exact coalesce_freeBytes_cons rest b

theorem coalesce_exists_big_cons (l : List FB) :
    ∀ (b : FB) (s : Nat), (∃ x ∈ b :: l, s ≤ x.size) → ∃ x ∈ coalesce (b :: l), s ≤ x.size := by
  induction l with
  | nil =>
    intro b s h
    simp [coalesce, coalesceAcc]
    simp at h
    exact h
  | cons b2 rest ih =>
    intro b s h
    by_cases hadj : b.addr + b.size = b2.addr
    · rw [coalesce_step, if_pos hadj]
      apply ih
      rcases h with ⟨x, hx, hs⟩
      simp at hx
      rcases hx with hx | hx | hx
      · exact ⟨⟨b.addr, b.size + b2.size⟩, by simp, by subst hx; simp at hs ⊢; omega⟩
      · exact ⟨⟨b.addr, b.size + b2.size⟩, by simp, by subst hx; simp at hs ⊢; omega⟩
      · exact ⟨x, by simp [hx], hs⟩
    · rw [coalesce_step, if_neg hadj]
      rcases h with ⟨x, hx, hs⟩
      simp at hx
      rcases hx with hx | hx
      · exact ⟨b, by simp, by subst hx; exact hs⟩
      · rcases ih b2 s ⟨x, by simp [hx], hs⟩ with ⟨y, hy, hsy⟩
        exact ⟨y, by simp [hy], hsy⟩

theorem coalesce_exists_big {l : List FB} {s : Nat} (h : ∃ x ∈ l, s ≤ x.size) :
    ∃ x ∈ coalesce l, s ≤ x.size := by
  cases l with
  | nil => simp at h
  | cons b rest => exact coalesce_exists_big_cons rest b s h

/- Section: Acquisition (`gc_alloc_from_freelist`) lemmas -/

theorem allocFL_none_iff {l : List FB} {t : Nat} :
    (allocFL l t).1 = none ↔ ∀ b ∈ l, b.size < t := by
  induction l with
  | nil => simp [allocFL]
  | cons b rest ih =>
    unfold allocFL
    by_cases h : t ≤ b.size
    · by_cases h2 : t + FREE_HEADER + GC_ALIGNMENT ≤ b.size
      · simp [h, h2]
      · simp [h, h2]
    · simp [h, ih]
      omega

theorem allocFL_none_eq {l : List FB} {t : Nat} (h : (allocFL l t).1 = none) :
    (allocFL l t).2 = l := by
  induction l with
  | nil => simp [allocFL]
  | cons b rest ih =>
    unfold allocFL at h ⊢
    by_cases h1 : t ≤ b.size
    · by_cases h2 : t + FREE_HEADER + GC_ALIGNMENT ≤ b.size
      · simp [h1, h2] at h
      · simp [h1, h2] at h
    · simp [h1] at h ⊢
      exact ih h

theorem allocFL_sub {l : List FB} {t : Nat} :
    ∀ b2 ∈ (allocFL l t).2, ∃ b ∈ l, b.addr ≤ b2.addr ∧ b2.addr + b2.size ≤ b.addr + b.size := by
  induction l with
  | nil => simp [allocFL]
  | cons b rest ih =>
    unfold allocFL
    by_cases h1 : t ≤ b.size
    · by_cases h2 : t + FREE_HEADER + GC_ALIGNMENT ≤ b.size
      · simp only [if_pos h1, if_pos h2]
        intro b2 hb2
        simp at hb2
        rcases hb2 with hb2 | hb2
        · exact ⟨b, by simp, by subst hb2; simp; omega⟩
        · exact ⟨b2, by simp [hb2], le_refl _, le_refl _⟩
      · simp only [if_pos h1, if_neg h2]
        intro b2 hb2
        exact ⟨b2, by simp [hb2], le_refl _, le_refl _⟩
    · simp only [if_neg h1]
      intro b2 hb2
      simp at hb2
      rcases hb2 with hb2 | hb2
      · exact ⟨b, by simp [hb2], by subst hb2; simp⟩
      · rcases ih b2 hb2 with ⟨b0, hb0, hle⟩
        exact ⟨b0, by simp [hb0], hle⟩

theorem allocFL_min {l : List FB} {t : Nat} (hm : ∀ b ∈ l, FREE_HEADER ≤ b.size) :
    ∀ b ∈ (allocFL l t).2, FREE_HEADER ≤ b.size := by
  induction l with
  | nil => simp [allocFL]
  | cons b rest ih =>
    unfold allocFL
    by_cases h1 : t ≤ b.size
    · by_cases h2 : t + FREE_HEADER + GC_ALIGNMENT ≤ b.size
      · simp only [if_pos h1, if_pos h2]
        intro b2 hb2
        simp at hb2
        rcases hb2 with hb2 | hb2
        · subst hb2; simp; omega
        · exact hm b2 (by simp [hb2])
      · simp only [if_pos h1, if_neg h2]
        intro b2 hb2
        exact hm b2 (by simp [hb2])
    · simp only [if_neg h1]
      intro b2 hb2
      simp at hb2
      rcases hb2 with hb2 | hb2
      · subst hb2; exact hm b2 (by simp)
      · exact ih (fun x hx => hm x (by simp [hx])) b2 hb2

theorem allocFL_grant_sub {l : List FB} {t : Nat} {a : Nat}
    (h : (allocFL l t).1 = some a) : ∃ b ∈ l, b.addr = a ∧ t ≤ b.size := by
  induction l with
  | nil => simp [allocFL] at h
  | cons b rest ih =>
    unfold allocFL at h
    by_cases h1 : t ≤ b.size
    · by_cases h2 : t + FREE_HEADER + GC_ALIGNMENT ≤ b.size
      · simp [h1, h2] at h
        exact ⟨b, by simp, h, h1⟩
      · simp [h1, h2] at h
        exact ⟨b, by simp, h, h1⟩
    · simp [h1] at h
      rcases ih h with ⟨b0, hb0, ha, ht⟩
      exact ⟨b0, by simp [hb0], ha, ht⟩

theorem allocFL_chain {l : List FB} {t : Nat} (hch : List.Chain' FBsep l) :
    List.Chain' FBsep (allocFL l t).2 := by
  induction l with
  | nil => simp [allocFL]
  | cons b rest ih =>
    have hpw : ∀ x ∈ rest, FBsep b x :=
      (List.pairwise_cons.mp (List.chain'_iff_pairwise.mp hch)).1
    unfold allocFL
    by_cases h1 : t ≤ b.size
    · by_cases h2 : t + FREE_HEADER + GC_ALIGNMENT ≤ b.size
      · simp only [if_pos h1, if_pos h2]
        rw [List.chain'_cons'] at hch ⊢
        refine ⟨?_, hch.2⟩
        intro y hy
        have := hch.1 y hy
        unfold FBsep at *
        simp
        omega
      · simp only [if_pos h1, if_neg h2]
        exact hch.tail
    · simp only [if_neg h1]
      rw [List.chain'_cons']
      refine ⟨?_, ih hch.tail⟩
      intro y hy
      have hmem : y ∈ (allocFL rest t).2 := List.mem_of_mem_head? hy
      rcases allocFL_sub y hmem with ⟨b0, hb0, hle1, _⟩
      have := hpw b0 hb0
      unfold FBsep at *
      omega

theorem allocFL_grant_disj_new {l : List FB} {t : Nat} {a : Nat}
    (hch : List.Chain' FBsep l) (h : (allocFL l t).1 = some a) :
    disjAllFB a t (allocFL l t).2 := by
  induction l with
  | nil => simp [allocFL] at h
  | cons b rest ih =>
    have hpw : ∀ x ∈ rest, FBsep b x :=
      (List.pairwise_cons.mp (List.chain'_iff_pairwise.mp hch)).1
    unfold allocFL at h ⊢
    by_cases h1 : t ≤ b.size
    · by_cases h2 : t + FREE_HEADER + GC_ALIGNMENT ≤ b.size
      · simp [h1, h2] at h ⊢
        subst h
        intro x hx
        simp at hx
        rcases hx with hx | hx
        · subst hx
          unfold spanDisj
          simp
        · have := hpw x hx
          unfold FBsep at this
          unfold spanDisj
          omega
      · simp [h1, h2] at h ⊢
        subst h
        intro x hx
        have := hpw x hx
        unfold FBsep at this
        unfold spanDisj
        omega
    · simp [h1] at h ⊢
      intro x hx
      simp at hx
      rcases hx with hx | hx
      · subst hx
        rcases allocFL_grant_sub h with ⟨b0, hb0, ha, ht⟩
        have := hpw b0 hb0
        unfold FBsep at this
        unfold spanDisj
        omega
      · exact ih hch.tail h x hx

theorem allocFL_pres_disj {l : List FB} {t : Nat} {x s : Nat}
    (hd : disjAllFB x s l) : disjAllFB x s (allocFL l t).2 := by
  intro b2 hb2
  rcases allocFL_sub b2 hb2 with ⟨b0, hb0, h1, h2⟩
  exact spanDisj_sub (hd b0 hb0) h1 h2

theorem allocFL_grant_disj_old {l : List FB} {t : Nat} {a : Nat}
    (h : (allocFL l t).1 = some a) :
    ∀ x s : Nat, disjAllFB x s l → spanDisj x s a t := by
  intro x s hd
  rcases allocFL_grant_sub h with ⟨b0, hb0, ha, ht⟩
  have := hd b0 hb0
  subst ha
  unfold spanDisj at *
  omega

/- Section: Sweep lemmas -/

theorem objBytes_cons (o : Obj) (l : List Obj) :
    objBytes (o :: l) = (OBJ_HEADER + o.size) + objBytes l := by
  simp [objBytes]

theorem add_span_nodrop (fl : List FB) (a s : Nat) :
    gc_add_to_freelist fl a (OBJ_HEADER + s) = insertFB fl ⟨a, OBJ_HEADER + s⟩ := by
  unfold gc_add_to_freelist OBJ_HEADER FREE_HEADER
  rw [if_neg (by omega)]

theorem freeBytes_insertFB (fl : List FB) (nb : FB) :
    freeBytes (insertFB fl nb) = nb.size + freeBytes fl := by
  unfold freeBytes
  rw [((insertFB_perm fl nb).map FB.size).sum_eq]
  simp

theorem sweep_kept_sub {objs : List Obj} {fl : List FB} {used : Nat} :
    ∀ y ∈ (sweepObjs objs fl used).1, ∃ o ∈ objs, y.addr = o.addr ∧ y.size = o.size := by
  induction objs generalizing fl used with
  | nil => simp [sweepObjs]
  | cons o rest ih =>
    by_cases h : o.marked = true
    · simp only [sweepObjs, if_pos h]
      intro y hy
      simp at hy
      rcases hy with hy | hy
      · subst hy; exact ⟨o, by simp, rfl, rfl⟩
      · rcases ih y hy with ⟨o0, ho0, he⟩
        exact ⟨o0, by simp [ho0], he⟩
    · simp only [sweepObjs, if_neg h]
      intro y hy
      rcases ih y hy with ⟨o0, ho0, he⟩
      exact ⟨o0, by simp [ho0], he⟩

theorem sweep_used {objs : List Obj} {fl : List FB} {used : Nat} :
    ∀ c : Nat, used = c + objBytes objs →
      (sweepObjs objs fl used).2.2 = c + objBytes (sweepObjs objs fl used).1 := by
  induction objs generalizing fl used with
  | nil =>
    intro c h
    simp only [sweepObjs]
    simpa [objBytes] using h
  | cons o rest ih =>
    intro c h
    rw [objBytes_cons] at h
    by_cases hm : o.marked = true
    · simp only [sweepObjs, if_pos hm]
      have hih := @ih fl used (c + (OBJ_HEADER + o.size)) (by omega)
      show (sweepObjs rest fl used).2.2
        = c + objBytes (⟨o.addr, o.size, false⟩ :: (sweepObjs rest fl used).1)
      rw [objBytes_cons, hih]
      show c + (OBJ_HEADER + o.size) + objBytes (sweepObjs rest fl used).1
          = c + ((OBJ_HEADER + o.size) + objBytes (sweepObjs rest fl used).1)
      omega
    · simp only [sweepObjs, if_neg hm]
      exact ih c (by omega)

theorem sweepObjs_inv {objs : List Obj} {fl : List FB} {used : Nat}
    (hch : List.Chain' FBsepLe fl)
    (hmin : ∀ b ∈ fl, FREE_HEADER ≤ b.size)
    (hod : List.Pairwise objDisj objs)
    (hof : ∀ o ∈ objs, disjAllFB o.addr (OBJ_HEADER + o.size) fl) :
    List.Chain' FBsepLe (sweepObjs objs fl used).2.1 ∧
    (∀ b ∈ (sweepObjs objs fl used).2.1, FREE_HEADER ≤ b.size) ∧
    List.Pairwise objDisj (sweepObjs objs fl used).1 ∧
    (∀ o ∈ (sweepObjs objs fl used).1,
      disjAllFB o.addr (OBJ_HEADER + o.size) (sweepObjs objs fl used).2.1) ∧
    (∀ x s : Nat, disjAllFB x s fl →
      (∀ o ∈ objs, spanDisj x s o.addr (OBJ_HEADER + o.size)) →
      disjAllFB x s (sweepObjs objs fl used).2.1) := by
  induction objs generalizing fl used with
  | nil =>
    simp only [sweepObjs]
    exact ⟨hch, hmin, List.Pairwise.nil, by simp, fun x s hd _ => hd⟩
  | cons o rest ih =>
    have hpair : ∀ y ∈ rest, objDisj o y := (List.pairwise_cons.mp hod).1
    have htl : List.Pairwise objDisj rest := (List.pairwise_cons.mp hod).2
    by_cases hm : o.marked = true
    · simp only [sweepObjs, if_pos hm]
      have hih := @ih fl used hch hmin htl (fun o2 h2 => hof o2 (by simp [h2]))
      refine ⟨hih.1, hih.2.1, ?_, ?_, ?_⟩
      · rw [List.pairwise_cons]
        refine ⟨?_, hih.2.2.1⟩
        intro y hy
        rcases sweep_kept_sub y hy with ⟨o0, ho0, ha, hs⟩
        have := hpair o0 ho0
        unfold objDisj spanDisj at *
        simp only []
        omega
      · intro y hy
        simp at hy
        rcases hy with hy | hy
        · subst hy
          exact hih.2.2.2.2 o.addr (OBJ_HEADER + o.size) (hof o (by simp))
            (fun o2 h2 => by have := hpair o2 h2; unfold objDisj at this; exact this)
        · exact hih.2.2.2.1 y hy
      · intro x s hd hobj
        exact hih.2.2.2.2 x s hd (fun o2 h2 => hobj o2 (by simp [h2]))
    · simp only [sweepObjs, if_neg hm, add_span_nodrop]
      have hnb : ∀ b ∈ fl, spanDisj o.addr (OBJ_HEADER + o.size) b.addr b.size :=
        hof o (by simp)
      have hpos : ∀ b ∈ fl, 0 < b.size := by
        intro b hb
        have := hmin b hb
        unfold FREE_HEADER at this
        omega
      have hch2 : List.Chain' FBsepLe (insertFB fl ⟨o.addr, OBJ_HEADER + o.size⟩) :=
        insertFB_chain hch hnb hpos
      have hmin2 : ∀ b ∈ insertFB fl ⟨o.addr, OBJ_HEADER + o.size⟩, FREE_HEADER ≤ b.size := by
        intro b hb
        rcases mem_insertFB.mp hb with hb | hb
        · subst hb
          show FREE_HEADER ≤ OBJ_HEADER + o.size
          unfold FREE_HEADER OBJ_HEADER
          omega
        · exact hmin b hb
      have hof2 : ∀ o2 ∈ rest,
          disjAllFB o2.addr (OBJ_HEADER + o2.size) (insertFB fl ⟨o.addr, OBJ_HEADER + o.size⟩) := by
        intro o2 h2 b hb
        rcases mem_insertFB.mp hb with hb | hb
        · subst hb
          have := hpair o2 h2
          unfold objDisj spanDisj at *
          simp only []
          omega
        · exact hof o2 (by simp [h2]) b hb
      have hih := @ih (insertFB fl ⟨o.addr, OBJ_HEADER + o.size⟩)
        (used - (OBJ_HEADER + o.size)) hch2 hmin2 htl hof2
      refine ⟨hih.1, hih.2.1, hih.2.2.1, hih.2.2.2.1, ?_⟩
      intro x s hd hobj
      refine hih.2.2.2.2 x s ?_ (fun o2 h2 => hobj o2 (by simp [h2]))
      intro b hb
      rcases mem_insertFB.mp hb with hb | hb
      · subst hb
        exact hobj o (by simp)
      · exact hd b hb

theorem sweep_freeBytes {objs : List Obj} {fl : List FB} {used : Nat} :
    freeBytes (sweepObjs objs fl used).2.1 = freeBytes fl + unmBytes objs := by
  induction objs generalizing fl used with
  | nil => simp [sweepObjs, unmBytes]
  | cons o rest ih =>
    by_cases hm : o.marked = true
    · simp only [sweepObjs, if_pos hm]
      rw [ih]
      simp [unmBytes, hm]
    · simp only [sweepObjs, if_neg hm, add_span_nodrop]
      rw [ih, freeBytes_insertFB]
      have : unmBytes (o :: rest) = (OBJ_HEADER + o.size) + unmBytes rest := by
        simp [unmBytes, hm]
      rw [this]
      simp
      omega

theorem sweep_exists_big {objs : List Obj} {fl : List FB} {used s : Nat}
    (h : ∃ b ∈ fl, s ≤ b.size) :
    ∃ b ∈ (sweepObjs objs fl used).2.1, s ≤ b.size := by
  induction objs generalizing fl used with
  | nil => simpa [sweepObjs] using h
  | cons o rest ih =>
    by_cases hm : o.marked = true
    · simp only [sweepObjs, if_pos hm]
      exact ih h
    · simp only [sweepObjs, if_neg hm, add_span_nodrop]
      rcases h with ⟨b, hb, hs⟩
      exact ih ⟨b, mem_insertFB.mpr (Or.inr hb), hs⟩

/- Section: Collection-level lemmas -/

theorem objBytes_markmap (objs : List Obj) (m : Nat → Bool) :
    objBytes (objs.map (fun o => (⟨o.addr, o.size, o.marked || m o.addr⟩ : Obj))) =
      objBytes objs := by
  unfold objBytes
  rw [List.map_map]
  rfl

theorem pairwise_markmap {objs : List Obj} {m : Nat → Bool}
    (h : List.Pairwise objDisj objs) :
    List.Pairwise objDisj (objs.map (fun o => (⟨o.addr, o.size, o.marked || m o.addr⟩ : Obj))) := by
  rw [List.pairwise_map]
  exact h.imp (fun hab => hab)

theorem collect_inv {m : Nat → Bool} {st : GCState} (h : Inv st) : Inv (gc_collect m st) := by
  unfold gc_collect
  by_cases hi : st.inited = false
  · rw [if_pos hi]; exact h
  · rw [if_neg hi]
    unfold gc_sweep
    have hof : ∀ o ∈ st.objects.map (fun o => (⟨o.addr, o.size, o.marked || m o.addr⟩ : Obj)),
        disjAllFB o.addr (OBJ_HEADER + o.size) st.free_list := by
      intro o ho
      rcases List.mem_map.mp ho with ⟨o0, ho0, rfl⟩
      exact h.obj_fl o0 ho0
    have hih := @sweepObjs_inv
      (st.objects.map (fun o => (⟨o.addr, o.size, o.marked || m o.addr⟩ : Obj)))
      st.free_list st.heap_used
      (h.fl_sep.imp (fun _ _ hab => Nat.le_of_lt hab)) h.fl_min
      (pairwise_markmap h.obj_disj) hof
    exact
      { fl_sep := coalesce_chain hih.1
        fl_min := coalesce_min hih.2.1
        obj_disj := hih.2.2.1
        obj_fl := fun o ho =>
          coalesce_disj (by unfold OBJ_HEADER; omega) (hih.2.2.2.1 o ho) }

theorem collect_used {m : Nat → Bool} {st : GCState}
    (h : st.heap_used = objBytes st.objects) :
    (gc_collect m st).heap_used = objBytes (gc_collect m st).objects := by
  unfold gc_collect
  by_cases hi : st.inited = false
  · rw [if_pos hi]; exact h
  · rw [if_neg hi]
    unfold gc_sweep
    have hused : st.heap_used =
        0 + objBytes (st.objects.map (fun o => (⟨o.addr, o.size, o.marked || m o.addr⟩ : Obj))) := by
      rw [objBytes_markmap]
      omega
    have := @sweep_used (st.objects.map (fun o => (⟨o.addr, o.size, o.marked || m o.addr⟩ : Obj)))
      st.free_list st.heap_used 0 hused
    simpa using this

theorem collect_count {m : Nat → Bool} {st : GCState} (h : st.inited = true) :
    (gc_collect m st).collection_count = st.collection_count + 1 := by
  unfold gc_collect gc_sweep
  rw [if_neg (by simp [h])]

theorem collect_inited (m : Nat → Bool) (st : GCState) :
    (gc_collect m st).inited = st.inited := by
  unfold gc_collect gc_sweep
  by_cases hi : st.inited = false
  · rw [if_pos hi]
  · rw [if_neg hi]

theorem collect_heap_size (m : Nat → Bool) (st : GCState) :
    (gc_collect m st).heap_size = st.heap_size := by
  unfold gc_collect gc_sweep
  by_cases hi : st.inited = false
  · rw [if_pos hi]
  · rw [if_neg hi]

theorem collect_exists_big {m : Nat → Bool} {st : GCState} {s : Nat}
    (h : ∃ b ∈ st.free_list, s ≤ b.size) :
    ∃ b ∈ (gc_collect m st).free_list, s ≤ b.size := by
  unfold gc_collect
  by_cases hi : st.inited = false
  · rw [if_pos hi]; exact h
  · rw [if_neg hi]
    unfold gc_sweep
    exact coalesce_exists_big (sweep_exists_big h)

/- Section: Allocation-level lemmas -/

theorem init_inv : Inv initState := by
  refine ⟨?_, ?_, ?_, ?_⟩
  · exact List.chain'_singleton _
  · intro b hb
    simp [initState] at hb
    subst hb
    show FREE_HEADER ≤ GC_HEAP_SIZE
    unfold FREE_HEADER GC_HEAP_SIZE
    omega
  · exact List.Pairwise.nil
  · intro o ho
    simp [initState] at ho

theorem gc_init_inv {st : GCState} (h : Inv st) : Inv (gc_init st) := by
  unfold gc_init
  by_cases hi : st.inited = true
  · rw [if_pos hi]; exact h
  · rw [if_neg hi]; exact init_inv

theorem gc_init_inited (st : GCState) : (gc_init st).inited = true := by
  unfold gc_init
  by_cases hi : st.inited = true
  · rw [if_pos hi]; exact hi
  · rw [if_neg hi]; rfl

theorem stage1_inv {m1 : Nat → Bool} {size : Nat} {st : GCState} (h : Inv st) :
    Inv (mallocStage1 m1 size st) := by
  unfold mallocStage1
  by_cases ht : overThreshold (gc_init st) (totalOf size) = true
  · rw [if_pos ht]; exact collect_inv (gc_init_inv h)
  · rw [if_neg ht]; exact gc_init_inv h

theorem push_obj_inv {st : GCState} {size a : Nat}
    (h : Inv st) (heq : (allocFL st.free_list (totalOf size)).1 = some a) :
    Inv { st with free_list := (allocFL st.free_list (totalOf size)).2
                  objects := ⟨a, alignUp size, false⟩ :: st.objects
                  heap_used := st.heap_used + totalOf size
                  allocation_count := st.allocation_count + 1 } := by
  refine ⟨?_, ?_, ?_, ?_⟩
  · exact allocFL_chain h.fl_sep
  · exact allocFL_min h.fl_min
  · rw [List.pairwise_cons]
    refine ⟨?_, h.obj_disj⟩
    intro y hy
    have h2 := spanDisj_symm
      (allocFL_grant_disj_old heq y.addr (OBJ_HEADER + y.size) (h.obj_fl y hy))
    exact h2
  · intro o ho
    rcases List.mem_cons.mp ho with ho | ho
    · subst ho
      exact allocFL_grant_disj_new h.fl_sep heq
    · exact allocFL_pres_disj (h.obj_fl o ho)

theorem malloc_inv {m1 m2 : Nat → Bool} {size : Nat} {st : GCState} (h : Inv st) :
    Inv (gc_malloc m1 m2 size st).2 := by
  have h1 : Inv (mallocStage1 m1 size st) := stage1_inv h
  unfold gc_malloc
  cases heq1 : (allocFL (mallocStage1 m1 size st).free_list (totalOf size)).1 with
  | some a =>
    simp only [heq1]
    exact push_obj_inv h1 heq1
  | none =>
    simp only [heq1]
    rw [allocFL_none_eq heq1]
    have h2 : Inv (gc_collect m2 (mallocStage1 m1 size st)) := collect_inv h1
    cases heq2 : (allocFL (gc_collect m2 (mallocStage1 m1 size st)).free_list (totalOf size)).1 with
    | some a =>
      simp only [heq2]
      exact push_obj_inv h2 heq2
    | none =>
      simp only [heq2]
      rw [allocFL_none_eq heq2]
      exact h2

theorem push_obj_used {st : GCState} {size a : Nat}
    (h : st.heap_used = objBytes st.objects) :
    ({ st with free_list := (allocFL st.free_list (totalOf size)).2,
               objects := ⟨a, alignUp size, false⟩ :: st.objects,
               heap_used := st.heap_used + totalOf size,
               allocation_count := st.allocation_count + 1 } : GCState).heap_used
      = objBytes ({ st with
                    free_list := (allocFL st.free_list (totalOf size)).2,
                    objects := ⟨a, alignUp size, false⟩ :: st.objects,
                    heap_used := st.heap_used + totalOf size,
                    allocation_count := st.allocation_count + 1 } : GCState).objects := by
  show st.heap_used + totalOf size = objBytes (⟨a, alignUp size, false⟩ :: st.objects)
  rw [objBytes_cons]
  show st.heap_used + totalOf size = (OBJ_HEADER + alignUp size) + objBytes st.objects
  rw [h]
  unfold totalOf
  omega

theorem malloc_used {m1 m2 : Nat → Bool} {size : Nat} {st : GCState}
    (h : st.heap_used = objBytes st.objects) :
    (gc_malloc m1 m2 size st).2.heap_used = objBytes (gc_malloc m1 m2 size st).2.objects := by
  have h0 : (gc_init st).heap_used = objBytes (gc_init st).objects := by
    unfold gc_init
    by_cases hi : st.inited = true
    · rw [if_pos hi]; exact h
    · rw [if_neg hi]; rfl
  have h1 : (mallocStage1 m1 size st).heap_used = objBytes (mallocStage1 m1 size st).objects := by
    unfold mallocStage1
    by_cases ht : overThreshold (gc_init st) (totalOf size) = true
    · rw [if_pos ht]; exact collect_used h0
    · rw [if_neg ht]; exact h0
  unfold gc_malloc
  cases heq1 : (allocFL (mallocStage1 m1 size st).free_list (totalOf size)).1 with
  | some a =>
    simp only [heq1]
    exact push_obj_used h1
  | none =>
    simp only [heq1]
    have h2 := @collect_used m2 { mallocStage1 m1 size st with
      free_list := (allocFL (mallocStage1 m1 size st).free_list (totalOf size)).2 } h1
    cases heq2 : (allocFL (gc_collect m2 { mallocStage1 m1 size st with
        free_list := (allocFL (mallocStage1 m1 size st).free_list (totalOf size)).2 }).free_list
        (totalOf size)).1 with
    | some a =>
      simp only [heq2]
      exact push_obj_used h2
    | none =>
      simp only [heq2]
      exact h2

/- Section: Reachability of the invariant -/

theorem reachable_inv {st : GCState} (h : Reachable st) : Inv st := by
  induction h with
  | init => exact init_inv
  | malloc m1 m2 size st _ ih => exact malloc_inv ih
  | collect m st _ ih => exact collect_inv ih

theorem reachable_used {st : GCState} (h : Reachable st) :
    st.heap_used = objBytes st.objects := by
  induction h with
  | init => rfl
  | malloc m1 m2 size st _ ih => exact malloc_used ih
  | collect m st _ ih => exact collect_used ih

theorem update_free_list_self (st : GCState) : { st with free_list := st.free_list } = st := rfl

/- Section: Claim theorems -/

/-- C4: after any sequence of allocate (`gc_malloc`) and collect
(`gc_collect`) calls starting from the initialized state, the free list
is strictly ascending by block address, and no free block's end address
equals another free block's start address (no two entries are mutually
adjacent). -/
theorem free_list_sorted_nonadjacent {st : GCState} (h : Reachable st) :
    List.Pairwise (fun b b2 : FB => b.addr < b2.addr ∧ b.addr + b.size ≠ b2.addr)
      st.free_list := by
  have hp : List.Pairwise FBsep st.free_list :=
    List.chain'_iff_pairwise.mp (reachable_inv h).fl_sep
  exact hp.imp (fun hab => by unfold FBsep at hab; omega)

/-- Witness for C4 at the initialized state. -/
theorem free_list_sorted_nonadjacent_witness :
    Reachable initState ∧
    List.Pairwise (fun b b2 : FB => b.addr < b2.addr ∧ b.addr + b.size ≠ b2.addr)
      initState.free_list :=
  ⟨Reachable.init, free_list_sorted_nonadjacent Reachable.init⟩

/-- C5: from any reachable collector state, after every `gc_malloc` call
(any request size, any conservative mark outcomes) and after every
`gc_collect` call, the bytes-in-use counter `heap_used` equals the sum of
header size + payload size over all objects in the registry. -/
theorem heap_used_accounting {st : GCState} (h : Reachable st) :
    ∀ (m1 m2 m : Nat → Bool) (size : Nat),
      (gc_malloc m1 m2 size st).2.heap_used
        = objBytes (gc_malloc m1 m2 size st).2.objects ∧
      (gc_collect m st).heap_used = objBytes (gc_collect m st).objects :=
  fun _ _ _ _ => ⟨malloc_used (reachable_used h), collect_used (reachable_used h)⟩

/-- Witness for C5 at the initialized state. -/
theorem heap_used_accounting_witness :
    Reachable initState ∧
    ((gc_malloc mNone mNone 8 initState).2.heap_used
        = objBytes (gc_malloc mNone mNone 8 initState).2.objects ∧
      (gc_collect mNone initState).heap_used
        = objBytes (gc_collect mNone initState).objects) :=
  ⟨Reachable.init, heap_used_accounting Reachable.init mNone mNone mNone 8⟩

/-- C3: on every `gc_malloc` call, the full collection before the first
free-list acquisition attempt (the second half of `mallocStage1`) runs
exactly when current bytes-in-use plus the request's total span
(header size + payload size rounded up to the 8-byte unit, `totalOf`)
exceeds the 0.8 collection-threshold fraction of the arena size — stated
in the exact rational form `5 * (used + total) > 4 * heap_size`, which for
the arena size `2^20` coincides with the source's `double` comparison
against `heap_size * 0.8` (see `overThreshold`). -/
theorem malloc_precollect_iff (m1 : Nat → Bool) (size : Nat) (st0 : GCState) :
    (mallocStage1 m1 size st0 = gc_collect m1 (gc_init st0) ∧
      (mallocStage1 m1 size st0).collection_count = (gc_init st0).collection_count + 1)
    ↔ 4 * (gc_init st0).heap_size < 5 * ((gc_init st0).heap_used + totalOf size) := by
  have hcond : overThreshold (gc_init st0) (totalOf size) = true
      ↔ 4 * (gc_init st0).heap_size < 5 * ((gc_init st0).heap_used + totalOf size) := by
    unfold overThreshold
    simp
  constructor
  · intro h
    by_contra hc
    have hst : mallocStage1 m1 size st0 = gc_init st0 := by
      unfold mallocStage1
      rw [if_neg (fun hh => hc (hcond.mp hh))]
    rw [hst] at h
    omega
  · intro h
    have hst : mallocStage1 m1 size st0 = gc_collect m1 (gc_init st0) := by
      unfold mallocStage1
      rw [if_pos (hcond.mpr h)]
    refine ⟨hst, ?_⟩
    rw [hst]
    exact collect_count (gc_init_inited st0)

/-- C10: calling `gc_force_collect` (or `gc_collect`) while the collector
state is uninitialized returns immediately with every field unchanged. -/
theorem collect_uninit_noop {m : Nat → Bool} {st : GCState} (h : st.inited = false) :
    gc_force_collect m st = st ∧ gc_collect m st = st := by
  unfold gc_force_collect gc_collect
  rw [if_pos h]
  exact ⟨rfl, rfl⟩

/-- Witness for C10 at the all-zero pre-constructor state. -/
theorem collect_uninit_noop_witness :
    uninitState.inited = false ∧
      (gc_force_collect mNone uninitState = uninitState ∧
        gc_collect mNone uninitState = uninitState) :=
  ⟨rfl, collect_uninit_noop rfl⟩

/-- C7: for every non-null pointer `p`, `gc_realloc(p, 0)` returns NULL
and leaves the whole collector state (registry, free list, bytes-in-use)
unchanged. -/
theorem realloc_zero {m1 m2 : Nat → Bool} {p : Nat} {st : GCState} (h : p ≠ 0) :
    gc_realloc m1 m2 p 0 st = (RRes.nullp, st) := by
  unfold gc_realloc
  rw [if_neg h, if_pos rfl]

/-- Witness for C7 at a concrete pointer and state. -/
theorem realloc_zero_witness :
    (24 : Nat) ≠ 0 ∧ gc_realloc mNone mNone 24 0 c2State = (RRes.nullp, c2State) :=
  ⟨by decide, realloc_zero (by decide)⟩

/-- C8: every span the sweep hands to `gc_add_to_freelist` is
`sizeof(gc_object_t) + payload`, which is at least the minimum storable
free-block size, so the too-small-drop branch is never taken from the
sweep path (the call always reduces to the plain sorted insertion), and
consequently sweeping conserves bytes: the free list gains exactly the
spans of the swept (unmarked) objects. -/
theorem sweep_spans_never_dropped :
    FREE_HEADER ≤ OBJ_HEADER ∧
    (∀ (fl : List FB) (a s : Nat),
      gc_add_to_freelist fl a (OBJ_HEADER + s) = insertFB fl ⟨a, OBJ_HEADER + s⟩) ∧
    (∀ st : GCState,
      freeBytes (gc_sweep st).free_list = freeBytes st.free_list + unmBytes st.objects) := by
  refine ⟨by unfold FREE_HEADER OBJ_HEADER; omega, add_span_nodrop, ?_⟩
  intro st
  unfold gc_sweep
  show freeBytes (coalesce (sweepObjs st.objects st.free_list st.heap_used).2.1) = _
  rw [coalesce_freeBytes]
  exact sweep_freeBytes

/-- C9: `gc_malloc(0)` is accepted: whenever the (initialized) state's
free list holds a block of at least the header size, the call returns the
non-null payload pointer of a fresh zero-payload object that is linked at
the registry head with mark flag false, and bytes-in-use grows by exactly
the header size over the state left by the (possibly triggered)
threshold collection. -/
theorem malloc_zero_size {m1 m2 : Nat → Bool} {st : GCState}
    (hin : st.inited = true) (hex : ∃ b ∈ st.free_list, OBJ_HEADER ≤ b.size) :
    ∃ a : Nat,
      (gc_malloc m1 m2 0 st).1 = some (a + OBJ_HEADER) ∧
      (gc_malloc m1 m2 0 st).2.objects
        = ⟨a, 0, false⟩ :: (mallocStage1 m1 0 st).objects ∧
      (gc_malloc m1 m2 0 st).2.heap_used = (mallocStage1 m1 0 st).heap_used + OBJ_HEADER := by
  have hinit : gc_init st = st := by
    unfold gc_init
    rw [if_pos hin]
  have hex1 : ∃ b ∈ (mallocStage1 m1 0 st).free_list, OBJ_HEADER ≤ b.size := by
    unfold mallocStage1
    rw [hinit]
    by_cases ht : overThreshold st (totalOf 0) = true
    · rw [if_pos ht]
      exact collect_exists_big hex
    · rw [if_neg ht]
      exact hex
  have hne : (allocFL (mallocStage1 m1 0 st).free_list (totalOf 0)).1 ≠ none := by
    intro hq
    rw [allocFL_none_iff] at hq
    rcases hex1 with ⟨b, hb, hs⟩
    have := hq b hb
    have ht : totalOf 0 = OBJ_HEADER := rfl
    omega
  rcases ho : (allocFL (mallocStage1 m1 0 st).free_list (totalOf 0)).1 with _ | a
  · exact absurd ho hne
  · refine ⟨a, ?_, ?_, ?_⟩
    · unfold gc_malloc
      simp only [ho]
    · unfold gc_malloc
      simp only [ho]
      rfl
    · unfold gc_malloc
      simp only [ho]
      rfl

/-- Witness for C9 at the initialized state. -/
theorem malloc_zero_size_witness :
    initState.inited = true ∧ (∃ b ∈ initState.free_list, OBJ_HEADER ≤ b.size) ∧
    (∃ a : Nat,
      (gc_malloc mNone mNone 0 initState).1 = some (a + OBJ_HEADER) ∧
      (gc_malloc mNone mNone 0 initState).2.objects
        = ⟨a, 0, false⟩ :: (mallocStage1 mNone 0 initState).objects ∧
      (gc_malloc mNone mNone 0 initState).2.heap_used
        = (mallocStage1 mNone 0 initState).heap_used + OBJ_HEADER) :=
  ⟨rfl, by decide, malloc_zero_size rfl (by decide)⟩

/-- C2 counterexample: a `gc_malloc` call that fails (returns NULL) after
its collections can still leave bytes-in-use different from its value at
entry, because the collection(s) run during the call sweep garbage: from
the reachable state `c2State` (one dropped 8-byte object), requesting a
full arena returns NULL with `heap_used` 0 instead of 32. -/
theorem malloc_oom_changes_used :
    (gc_malloc mNone mNone GC_HEAP_SIZE c2State).1 = none ∧
    (gc_malloc mNone mNone GC_HEAP_SIZE c2State).2.heap_used ≠ c2State.heap_used := by
  decide

/-- C2 (amended): when the first acquisition attempt fails, `gc_malloc`
runs exactly one more full collection and retries acquisition exactly
once; if the retry also fails it returns NULL without terminating, and
the returned state is exactly the state after that second collection —
no object is added to the registry and no bytes are charged by the failed
allocation itself (bytes-in-use may still have shrunk through the
collections the call ran). -/
theorem malloc_oom_exact {m1 m2 : Nat → Bool} {size : Nat} {st0 : GCState}
    (h1 : (allocFL (mallocStage1 m1 size st0).free_list (totalOf size)).1 = none)
    (h2 : (allocFL (gc_collect m2 (mallocStage1 m1 size st0)).free_list (totalOf size)).1
      = none) :
    gc_malloc m1 m2 size st0 = (none, gc_collect m2 (mallocStage1 m1 size st0)) := by
  unfold gc_malloc
  simp only [h1]
  rw [allocFL_none_eq h1, update_free_list_self]
  simp only [h2]
  rw [allocFL_none_eq h2, update_free_list_self]

/-- Witness for the amended C2 at a concrete out-of-memory request. -/
theorem malloc_oom_exact_witness :
    (allocFL (mallocStage1 mNone GC_HEAP_SIZE c2State).free_list
      (totalOf GC_HEAP_SIZE)).1 = none ∧
    (allocFL (gc_collect mNone (mallocStage1 mNone GC_HEAP_SIZE c2State)).free_list
      (totalOf GC_HEAP_SIZE)).1 = none ∧
    gc_malloc mNone mNone GC_HEAP_SIZE c2State
      = (none, gc_collect mNone (mallocStage1 mNone GC_HEAP_SIZE c2State)) :=
  ⟨by decide, by decide, malloc_oom_exact (by decide) (by decide)⟩

/-- C1: evaluating `gc_realloc` at a live object (payload at offset 24,
payload size 8) with a larger request (64 bytes) exercises the source's
misplaced-brace bug: the allocate-new-and-copy fallback is dead code
inside the shrink branch, control reaches the end of the non-void
function, and no new object is allocated, nothing is copied, and the
state is untouched. -/
theorem realloc_grow_falls_off_end :
    gc_realloc mNone mNone 24 64 c2State = (RRes.undef, c2State) := by
  decide

/- Section: Mark-engine lemmas -/

theorem mle_refl (l : List Obj) : MarksLe l l := by
  induction l with
  | nil => exact List.Forall₂.nil
  | cons o rest ih => exact List.Forall₂.cons ⟨rfl, rfl, fun h => h⟩ ih

theorem mle_trans {l1 l2 l3 : List Obj} (h1 : MarksLe l1 l2) (h2 : MarksLe l2 l3) :
    MarksLe l1 l3 := by
  induction h1 generalizing l3 with
  | nil => cases h2; exact List.Forall₂.nil
  | cons hab hrest ih =>
    cases h2 with
    | cons hbc hrest2 =>
      exact List.Forall₂.cons
        ⟨hab.1.trans hbc.1, hab.2.1.trans hbc.2.1, fun h => hbc.2.2 (hab.2.2 h)⟩
        (ih hrest2)

theorem mle_markedAt {l l2 : List Obj} (h : MarksLe l l2) {a : Nat}
    (hm : markedAt l a) : markedAt l2 a := by
  induction h with
  | nil => rcases hm with ⟨o, ho, _⟩; simp at ho
  | cons hab hrest ih =>
    rcases hm with ⟨o, ho, ha, hmk⟩
    rcases List.mem_cons.mp ho with ho | ho
    · subst ho
      exact ⟨_, List.mem_cons_self _ _, by rw [← hab.1]; exact ha, hab.2.2 hmk⟩
    · rcases ih ⟨o, ho, ha, hmk⟩ with ⟨o2, ho2, ha2, hm2⟩
      exact ⟨o2, List.mem_cons_of_mem _ ho2, ha2, hm2⟩

theorem mle_map_addr {l l2 : List Obj} (h : MarksLe l l2) :
    l.map Obj.addr = l2.map Obj.addr := by
  induction h with
  | nil => rfl
  | cons hab hrest ih => simp only [List.map_cons, ih, hab.1]

theorem mle_unmarked_le {l l2 : List Obj} (h : MarksLe l l2) :
    unmarkedCount l2 ≤ unmarkedCount l := by
  induction h with
  | nil => exact le_refl _
  | cons hab hrest ih =>
    rename_i o1 o2 r1 r2
    unfold unmarkedCount at *
    rw [List.filter_cons, List.filter_cons]
    by_cases h1 : o1.marked = true
    · have h2 := hab.2.2 h1
      simp only [h1, h2, Bool.not_true]
      rw [if_neg (by simp), if_neg (by simp)]
      exact ih
    · rw [Bool.not_eq_true] at h1
      by_cases h2 : o2.marked = true
      · simp only [h1, h2, Bool.not_true]
        rw [if_neg (by simp), if_pos (by simp)]
        simp only [List.length_cons]
        omega
      · rw [Bool.not_eq_true] at h2
        simp only [h1, h2]
        rw [if_pos (by simp), if_pos (by simp)]
        simp only [List.length_cons]
        omega

theorem mle_mem {l l2 : List Obj} (h : MarksLe l l2) {o : Obj} (ho : o ∈ l) :
    ∃ o2 ∈ l2, o.addr = o2.addr ∧ o.size = o2.size := by
  induction h with
  | nil => simp at ho
  | cons hab hrest ih =>
    rcases List.mem_cons.mp ho with ho | ho
    · subst ho
      exact ⟨_, List.mem_cons_self _ _, hab.1, hab.2.1⟩
    · rcases ih ho with ⟨o2, ho2, he⟩
      exact ⟨o2, List.mem_cons_of_mem _ ho2, he⟩

theorem mle_mem_rev {l l2 : List Obj} (h : MarksLe l l2) {o2 : Obj} (ho2 : o2 ∈ l2) :
    ∃ o ∈ l, o.addr = o2.addr ∧ o.size = o2.size := by
  induction h with
  | nil => simp at ho2
  | cons hab hrest ih =>
    rcases List.mem_cons.mp ho2 with ho | ho
    · subst ho
      exact ⟨_, List.mem_cons_self _ _, hab.1, hab.2.1⟩
    · rcases ih ho with ⟨o, ho1, he⟩
      exact ⟨o, List.mem_cons_of_mem _ ho1, he⟩

theorem containsB_congr {o o2 : Obj} (ha : o.addr = o2.addr) (hs : o.size = o2.size)
    (p : Nat) : containsB o p = containsB o2 p := by
  unfold containsB
  rw [ha, hs]

theorem mle_containsAddr {l l2 : List Obj} (h : MarksLe l l2) (base hsize p : Nat) :
    containsAddr base hsize l p = containsAddr base hsize l2 p := by
  unfold containsAddr findContaining
  by_cases hin : inHeapB base hsize p = true
  · rw [if_pos hin, if_pos hin]
    induction h with
    | nil => rfl
    | cons hab hrest ih =>
      rename_i o1 o2 r1 r2
      rcases hab with ⟨ha, hs, _⟩
      by_cases hc : containsB o1 p = true
      · have hc2 : containsB o2 p = true := by rw [← containsB_congr ha hs]; exact hc
        simp only [List.find?_cons, hc, hc2, Option.map_some']
        rw [ha]
      · rw [Bool.not_eq_true] at hc
        have hc2 : containsB o2 p = false := by rw [← containsB_congr ha hs]; exact hc
        simp only [List.find?_cons, hc, hc2]
        exact ih
  · rw [if_neg hin, if_neg hin]

theorem mfc_mle (objs : List Obj) (p : Nat) : MarksLe objs (markFirstContaining objs p) := by
  induction objs with
  | nil => exact List.Forall₂.nil
  | cons o rest ih =>
    unfold markFirstContaining
    by_cases hc : containsB o p = true
    · rw [if_pos hc]
      exact List.Forall₂.cons ⟨rfl, rfl, fun _ => rfl⟩ (mle_refl rest)
    · rw [if_neg hc]
      exact List.Forall₂.cons ⟨rfl, rfl, fun h => h⟩ ih

theorem find_mem {base hsize p : Nat} {objs : List Obj} {o : Obj}
    (h : findContaining base hsize objs p = some o) : o ∈ objs ∧ containsB o p = true := by
  unfold findContaining at h
  by_cases hin : inHeapB base hsize p = true
  · rw [if_pos hin] at h
    have h2 := List.find?_some h
    exact ⟨List.mem_of_find?_eq_some h, h2⟩
  · rw [if_neg hin] at h
    exact absurd h (by simp)

theorem mfc_marks_found {base hsize p : Nat} {objs : List Obj} {o : Obj}
    (h : findContaining base hsize objs p = some o) :
    markedAt (markFirstContaining objs p) o.addr := by
  unfold findContaining at h
  by_cases hin : inHeapB base hsize p = true
  · rw [if_pos hin] at h
    induction objs with
    | nil => simp at h
    | cons b rest ih =>
      unfold markFirstContaining
      by_cases hc : containsB b p = true
      · rw [if_pos hc]
        simp only [List.find?_cons, hc] at h
        obtain rfl := Option.some.inj h
        exact ⟨⟨b.addr, b.size, true⟩, List.mem_cons_self _ _, rfl, rfl⟩
      · rw [if_neg hc]
        rw [Bool.not_eq_true] at hc
        simp only [List.find?_cons, hc] at h
        rcases ih h with ⟨o2, ho2, ha, hm⟩
        exact ⟨o2, List.mem_cons_of_mem _ ho2, ha, hm⟩
  · rw [if_neg hin] at h
    exact absurd h (by simp)

theorem mfc_unmarked {base hsize p : Nat} {objs : List Obj} {o : Obj}
    (h : findContaining base hsize objs p = some o) (hmk : o.marked = false) :
    unmarkedCount (markFirstContaining objs p) + 1 = unmarkedCount objs := by
  unfold findContaining at h
  by_cases hin : inHeapB base hsize p = true
  · rw [if_pos hin] at h
    induction objs with
    | nil => simp at h
    | cons b rest ih =>
      unfold markFirstContaining
      by_cases hc : containsB b p = true
      · rw [if_pos hc]
        simp only [List.find?_cons, hc] at h
        obtain rfl := Option.some.inj h
        unfold unmarkedCount
        rw [List.filter_cons, List.filter_cons]
        rw [hmk]
        simp
      · rw [if_neg hc]
        rw [Bool.not_eq_true] at hc
        simp only [List.find?_cons, hc] at h
        have := ih h
        unfold unmarkedCount at *
        rw [List.filter_cons, List.filter_cons]
        by_cases hb : b.marked = true
        · rw [if_neg (by simp [hb]), if_neg (by simp [hb])]
          exact this
        · rw [Bool.not_eq_true] at hb
          rw [hb]
          rw [if_pos (by simp), if_pos (by simp)]
          simp only [List.length_cons]
          omega
  · rw [if_neg hin] at h
    exact absurd h (by simp)

theorem mfc_markedAt_cases {base hsize p : Nat} {objs : List Obj} {o : Obj} {a : Nat}
    (h : findContaining base hsize objs p = some o)
    (hm : markedAt (markFirstContaining objs p) a) :
    markedAt objs a ∨ a = o.addr := by
  unfold findContaining at h
  by_cases hin : inHeapB base hsize p = true
  · rw [if_pos hin] at h
    induction objs with
    | nil => simp at h
    | cons b rest ih =>
      unfold markFirstContaining at hm
      by_cases hc : containsB b p = true
      · rw [if_pos hc] at hm
        simp only [List.find?_cons, hc] at h
        obtain rfl := Option.some.inj h
        rcases hm with ⟨o2, ho2, ha, hmk⟩
        rcases List.mem_cons.mp ho2 with ho2 | ho2
        · subst ho2
          right
          exact ha.symm
        · left
          exact ⟨o2, List.mem_cons_of_mem _ ho2, ha, hmk⟩
      · rw [if_neg hc] at hm
        rw [Bool.not_eq_true] at hc
        simp only [List.find?_cons, hc] at h
        rcases hm with ⟨o2, ho2, ha, hmk⟩
        rcases List.mem_cons.mp ho2 with ho2 | ho2
        · subst ho2
          left
          exact ⟨o2, List.mem_cons_self _ _, ha, hmk⟩
        · rcases ih h ⟨o2, ho2, ha, hmk⟩ with hcase | hcase
          · rcases hcase with ⟨o3, ho3, ha3, hm3⟩
            exact Or.inl ⟨o3, List.mem_cons_of_mem _ ho3, ha3, hm3⟩
          · exact Or.inr hcase
  · rw [if_neg hin] at h
    exact absurd h (by simp)

theorem unmarked_pos {objs : List Obj} {o : Obj} (ho : o ∈ objs) (hm : o.marked = false) :
    1 ≤ unmarkedCount objs := by
  unfold unmarkedCount
  have hmem : o ∈ objs.filter (fun o => !o.marked) :=
    List.mem_filter.mpr ⟨ho, by simp [hm]⟩
  exact List.length_pos.mpr (List.ne_nil_of_mem hmem)

theorem markWordsF_mono_of {mem : Nat → Nat} {base hsize : Nat} (fuel : Nat)
    (hP : ∀ objs p r, markObjF mem base hsize fuel objs p = some r → MarksLe objs r) :
    ∀ (ws : List Nat) (objs r : List Obj),
      markWordsF mem base hsize fuel objs ws = some r → MarksLe objs r := by
  intro ws
  induction ws with
  | nil =>
    intro objs r h
    rw [markWordsF] at h
    obtain rfl := Option.some.inj h
    exact mle_refl _
  | cons w ws ih =>
    intro objs r h
    rw [markWordsF] at h
    by_cases hv : validPtr base hsize (mem w) = true
    · rw [if_pos hv] at h
      cases heq : markObjF mem base hsize fuel objs (mem w) with
      | none =>
        simp only [heq] at h
        simp at h
      | some objs2 =>
        simp only [heq] at h
        exact mle_trans (hP objs (mem w) objs2 heq) (ih objs2 r h)
    · rw [if_neg hv] at h
      exact ih objs r h

theorem markObjF_mono {mem : Nat → Nat} {base hsize : Nat} :
    ∀ (fuel : Nat) (objs : List Obj) (p : Nat) (r : List Obj),
      markObjF mem base hsize fuel objs p = some r → MarksLe objs r := by
  intro fuel
  induction fuel with
  | zero =>
    intro objs p r h
    rw [markObjF] at h
    simp at h
  | succ fuel ih =>
    intro objs p r h
    rw [markObjF] at h
    by_cases hin : inHeapB base hsize p = true
    · rw [if_pos hin] at h
      cases hfc : findContaining base hsize objs p with
      | none =>
        simp only [hfc] at h
        obtain rfl := Option.some.inj h
        exact mle_refl _
      | some o =>
        simp only [hfc] at h
        by_cases hmk : o.marked = true
        · rw [if_pos hmk] at h
          obtain rfl := Option.some.inj h
          exact mle_refl _
        · rw [if_neg hmk] at h
          exact mle_trans (mfc_mle objs p) (markWordsF_mono_of fuel ih _ _ _ h)
    · rw [if_neg hin] at h
      obtain rfl := Option.some.inj h
      exact mle_refl _

theorem markWordsF_total_of {mem : Nat → Nat} {base hsize : Nat} (fuel : Nat)
    (hT : ∀ objs p, unmarkedCount objs < fuel →
      ∃ r, markObjF mem base hsize fuel objs p = some r) :
    ∀ (ws : List Nat) (objs : List Obj), unmarkedCount objs < fuel →
      ∃ r, markWordsF mem base hsize fuel objs ws = some r := by
  intro ws
  induction ws with
  | nil =>
    intro objs _
    exact ⟨objs, by rw [markWordsF]⟩
  | cons w ws ih =>
    intro objs hcnt
    by_cases hv : validPtr base hsize (mem w) = true
    · rcases hT objs (mem w) hcnt with ⟨objs2, heq⟩
      have hcnt2 : unmarkedCount objs2 < fuel :=
        Nat.lt_of_le_of_lt (mle_unmarked_le (markObjF_mono fuel objs (mem w) objs2 heq)) hcnt
      rcases ih objs2 hcnt2 with ⟨r, hr⟩
      refine ⟨r, ?_⟩
      rw [markWordsF, if_pos hv, heq]
      exact hr
    · rcases ih objs hcnt with ⟨r, hr⟩
      refine ⟨r, ?_⟩
      rw [markWordsF, if_neg hv]
      exact hr

theorem markObjF_total {mem : Nat → Nat} {base hsize : Nat} :
    ∀ (fuel : Nat) (objs : List Obj) (p : Nat),
      unmarkedCount objs < fuel → ∃ r, markObjF mem base hsize fuel objs p = some r := by
  intro fuel
  induction fuel with
  | zero =>
    intro objs p h
    exact absurd h (Nat.not_lt_zero _)
  | succ fuel ih =>
    intro objs p hcnt
    by_cases hin : inHeapB base hsize p = true
    · cases hfc : findContaining base hsize objs p with
      | none =>
        refine ⟨objs, ?_⟩
        rw [markObjF, if_pos hin]
        simp only [hfc]
      | some o =>
        by_cases hmk : o.marked = true
        · refine ⟨objs, ?_⟩
          rw [markObjF, if_pos hin]
          simp only [hfc, if_pos hmk]
        · rw [Bool.not_eq_true] at hmk
          have hcard := mfc_unmarked hfc hmk
          have hpos := unmarked_pos (find_mem hfc).1 hmk
          have hcnt2 : unmarkedCount (markFirstContaining objs p) < fuel := by omega
          rcases markWordsF_total_of fuel ih (payloadWords o)
            (markFirstContaining objs p) hcnt2 with ⟨r, hr⟩
          refine ⟨r, ?_⟩
          rw [markObjF, if_pos hin]
          simp only [hfc]
          rw [if_neg (by simp [hmk])]
          exact hr
    · refine ⟨objs, ?_⟩
      rw [markObjF, if_neg hin]

theorem mle_succA {l l2 : List Obj} (h : MarksLe l l2) {mem : Nat → Nat}
    {base hsize a a2 : Nat} :
    SuccA mem base hsize l a a2 ↔ SuccA mem base hsize l2 a a2 := by
  constructor
  · rintro ⟨o, ho, ha, i, hi, hv, hc⟩
    rcases mle_mem h ho with ⟨o2, ho2, hea, hes⟩
    refine ⟨o2, ho2, by rw [← hea]; exact ha, i, by rw [← hes]; exact hi, ?_, ?_⟩
    · rw [← hea]
      exact hv
    · rw [← hea, ← mle_containsAddr h]
      exact hc
  · rintro ⟨o2, ho2, ha, i, hi, hv, hc⟩
    rcases mle_mem_rev h ho2 with ⟨o, ho, hea, hes⟩
    refine ⟨o, ho, by rw [hea]; exact ha, i, by rw [hes]; exact hi, ?_, ?_⟩
    · rw [hea]
      exact hv
    · rw [hea, mle_containsAddr h]
      exact hc

theorem markWordsF_complete_of {mem : Nat → Nat} {base hsize : Nat} (fuel : Nat)
    (hCP : ∀ (objs : List Obj) (p : Nat) (r : List Obj), (objs.map Obj.addr).Nodup →
      markObjF mem base hsize fuel objs p = some r →
      (∀ o, findContaining base hsize objs p = some o → markedAt r o.addr) ∧
      (∀ a, markedAt r a → ¬markedAt objs a →
        ∀ a2, SuccA mem base hsize objs a a2 → markedAt r a2)) :
    ∀ (ws : List Nat) (objs r : List Obj), (objs.map Obj.addr).Nodup →
      markWordsF mem base hsize fuel objs ws = some r →
      (∀ w ∈ ws, validPtr base hsize (mem w) = true →
        ∀ a2, containsAddr base hsize objs (mem w) = some a2 → markedAt r a2) ∧
      (∀ a, markedAt r a → ¬markedAt objs a →
        ∀ a2, SuccA mem base hsize objs a a2 → markedAt r a2) := by
  intro ws
  induction ws with
  | nil =>
    intro objs r hnd h
    rw [markWordsF] at h
    obtain rfl := Option.some.inj h
    refine ⟨by simp, ?_⟩
    intro a hma hnma a2 _
    exact absurd hma hnma
  | cons w ws ih =>
    intro objs r hnd h
    rw [markWordsF] at h
    by_cases hv : validPtr base hsize (mem w) = true
    · rw [if_pos hv] at h
      cases heq : markObjF mem base hsize fuel objs (mem w) with
      | none =>
        simp only [heq] at h
        simp at h
      | some objs2 =>
        simp only [heq] at h
        have hmle1 : MarksLe objs objs2 := markObjF_mono fuel objs (mem w) objs2 heq
        have hmle2 : MarksLe objs2 r := markWordsF_mono_of fuel
          (fun o2 p2 r2 h2 => markObjF_mono fuel o2 p2 r2 h2) ws objs2 r h
        have hnd2 : (objs2.map Obj.addr).Nodup := by
          rw [← mle_map_addr hmle1]
          exact hnd
        have hcp := hCP objs (mem w) objs2 hnd heq
        have hcw := ih objs2 r hnd2 h
        constructor
        · intro w2 hw2 hv2 a2 hc2
          rcases List.mem_cons.mp hw2 with hw2 | hw2
          · subst hw2
            unfold containsAddr at hc2
            cases hfc : findContaining base hsize objs (mem w2) with
            | none =>
              rw [hfc] at hc2
              simp at hc2
            | some o =>
              rw [hfc] at hc2
              simp at hc2
              rw [← hc2]
              exact mle_markedAt hmle2 (hcp.1 o hfc)
          · refine hcw.1 w2 hw2 hv2 a2 ?_
            rw [← mle_containsAddr hmle1]
            exact hc2
        · intro a hma hnma a2 hsucc
          by_cases hm2 : markedAt objs2 a
          · exact mle_markedAt hmle2 (hcp.2 a hm2 hnma a2 hsucc)
          · exact hcw.2 a hma hm2 a2 ((mle_succA hmle1).mp hsucc)
    · rw [if_neg hv] at h
      have hcw := ih objs r hnd h
      constructor
      · intro w2 hw2 hv2 a2 hc2
        rcases List.mem_cons.mp hw2 with hw2 | hw2
        · subst hw2
          exact absurd hv2 hv
        · exact hcw.1 w2 hw2 hv2 a2 hc2
      · exact hcw.2

theorem markObjF_complete {mem : Nat → Nat} {base hsize : Nat} :
    ∀ (fuel : Nat) (objs : List Obj) (p : Nat) (r : List Obj), (objs.map Obj.addr).Nodup →
      markObjF mem base hsize fuel objs p = some r →
      (∀ o, findContaining base hsize objs p = some o → markedAt r o.addr) ∧
      (∀ a, markedAt r a → ¬markedAt objs a →
        ∀ a2, SuccA mem base hsize objs a a2 → markedAt r a2) := by
  intro fuel
  induction fuel with
  | zero =>
    intro objs p r _ h
    rw [markObjF] at h
    simp at h
  | succ fuel ih =>
    intro objs p r hnd h
    rw [markObjF] at h
    by_cases hin : inHeapB base hsize p = true
    · rw [if_pos hin] at h
      cases hfc : findContaining base hsize objs p with
      | none =>
        simp only [hfc] at h
        obtain rfl := Option.some.inj h
        refine ⟨?_, ?_⟩
        · intro o ho
          exact absurd ho (by simp)
        · intro a hma hnma a2 _
          exact absurd hma hnma
      | some o =>
        simp only [hfc] at h
        by_cases hmk : o.marked = true
        · rw [if_pos hmk] at h
          obtain rfl := Option.some.inj h
          refine ⟨?_, ?_⟩
          · intro o2 ho2
            obtain rfl := Option.some.inj ho2
            exact ⟨o, (find_mem hfc).1, rfl, hmk⟩
          · intro a hma hnma a2 _
            exact absurd hma hnma
        · rw [if_neg hmk] at h
          have hmle1 : MarksLe objs (markFirstContaining objs p) := mfc_mle objs p
          have hmle2 : MarksLe (markFirstContaining objs p) r :=
            markWordsF_mono_of fuel (fun a b c d => markObjF_mono fuel a b c d) _ _ _ h
          have hnd2 : ((markFirstContaining objs p).map Obj.addr).Nodup := by
            rw [← mle_map_addr hmle1]
            exact hnd
          have hcw := markWordsF_complete_of fuel ih (payloadWords o)
            (markFirstContaining objs p) r hnd2 h
          have homem := (find_mem hfc).1
          refine ⟨?_, ?_⟩
          · intro o2 ho2
            obtain rfl := Option.some.inj ho2
            exact mle_markedAt hmle2 (mfc_marks_found hfc)
          · intro a hma hnma a2 hsucc
            by_cases ha : a = o.addr
            · subst ha
              rcases hsucc with ⟨o3, ho3, ha3, i, hi, hvp, hca⟩
              have ho3o : o3 = o := List.inj_on_of_nodup_map hnd ho3 homem ha3
              subst ho3o
              have hw : o3.addr + OBJ_HEADER + 8 * i ∈ payloadWords o3 := by
                unfold payloadWords
                simp only [List.mem_map, List.mem_range]
                exact ⟨i, hi, rfl⟩
              refine hcw.1 _ hw hvp a2 ?_
              rw [← mle_containsAddr hmle1]
              exact hca
            · have hnm2 : ¬markedAt (markFirstContaining objs p) a := by
                intro hx
                rcases mfc_markedAt_cases hfc hx with hy | hy
                · exact hnma hy
                · exact ha hy
              exact hcw.2 a hma hnm2 a2 ((mle_succA hmle1).mp hsucc)
    · rw [if_neg hin] at h
      obtain rfl := Option.some.inj h
      refine ⟨?_, ?_⟩
      · intro o ho
        unfold findContaining at ho
        rw [if_neg hin] at ho
        exact absurd ho (by simp)
      · intro a hma hnma a2 _
        exact absurd hma hnma

/-- C6: `gc_mark_object` terminates for every candidate address and every
object graph — any fuel above the number of unmarked registry nodes is
enough, because an already-marked object is skipped, so each recursive
entry that does real work strictly shrinks the unmarked set even on
cyclic conservative reference graphs — and when it returns, every object
conservatively reachable from the candidate address through payload words
passing the candidate-root test (`Reach`) is marked. -/
theorem gc_mark_terminates_and_complete
    (mem : Nat → Nat) (base hsize : Nat) (objs : List Obj) (p : Nat) (fuel : Nat)
    (hfuel : unmarkedCount objs < fuel)
    (hnd : (objs.map Obj.addr).Nodup)
    (hun : ∀ o ∈ objs, o.marked = false) :
    ∃ r, markObjF mem base hsize fuel objs p = some r ∧
      ∀ a, Reach mem base hsize objs p a → markedAt r a := by
  rcases markObjF_total fuel objs p hfuel with ⟨r, hr⟩
  have hcp := markObjF_complete fuel objs p r hnd hr
  refine ⟨r, hr, ?_⟩
  intro a hra
  induction hra with
  | root a2 hc =>
    unfold containsAddr at hc
    cases hfc : findContaining base hsize objs p with
    | none =>
      rw [hfc] at hc
      simp at hc
    | some o =>
      rw [hfc] at hc
      simp at hc
      rw [← hc]
      exact hcp.1 o hfc
  | step a2 a3 hra2 hsucc ih =>
    have hnm : ¬markedAt objs a2 := by
      rintro ⟨o, ho, _, hmk⟩
      rw [hun o ho] at hmk
      exact absurd hmk (by simp)
    exact hcp.2 a2 ih hnm a3 hsucc

/-- Witness for C6: a two-object cycle (each object's payload word holds
the other's payload address) is fully marked from one candidate root. -/
theorem gc_mark_terminates_and_complete_witness :
    unmarkedCount [⟨0, 8, false⟩, ⟨32, 8, false⟩] < 3 ∧
    (([⟨0, 8, false⟩, ⟨32, 8, false⟩] : List Obj).map Obj.addr).Nodup ∧
    (∀ o ∈ ([⟨0, 8, false⟩, ⟨32, 8, false⟩] : List Obj), o.marked = false) ∧
    (∃ r, markObjF (fun w => if w = 24 then 56 else if w = 56 then 24 else 1) 0 1024 3
        [⟨0, 8, false⟩, ⟨32, 8, false⟩] 24 = some r ∧
      ∀ a, Reach (fun w => if w = 24 then 56 else if w = 56 then 24 else 1) 0 1024
          [⟨0, 8, false⟩, ⟨32, 8, false⟩] 24 a → markedAt r a) :=
  ⟨by decide, by decide, by decide,
    gc_mark_terminates_and_complete _ 0 1024 _ 24 3 (by decide) (by decide) (by decide)⟩

end GCModel
